import Mathlib

/-!
Verification of the YAP read-along chunker, playback controller and TTS
HTTP-service helpers.

Text is embedded as `List Char`: Lean `Char` is a Unicode scalar value, so a
`List Char` is exactly a sequence of code points.  The chunker and playback
controller have no implementation under the repository's Python sources (the
tests only re-state fragments of the logic inline), so they are modelled from
the specification; the `length_scale` clamp and the voice-discovery function
are translated from `src/tts/app.py`.
-/

namespace Yap

/-- Modelled from the spec: the splitting mode of §4.1 (`paragraph` | `line`). -/
inductive ChunkMode where
  | paragraph
  | line
deriving DecidableEq, Repr

/-- Modelled from the spec: the read-along configuration of §4.1 / §6:
`mode`, `maxChunks` (positive, default 30), `maxCharsPerChunk`
(positive, default 1200). -/
structure ChunkConfig where
  mode : ChunkMode
  maxChunks : Nat
  maxCharsPerChunk : Nat
deriving DecidableEq, Repr

/-- Modelled from the spec: the default configuration (`paragraph`, 30, 1200). -/
def default_config : ChunkConfig :=
  { mode := ChunkMode.paragraph, maxChunks := 30, maxCharsPerChunk := 1200 }

/-- Modelled from the spec: a Chunk of §3 — a zero-based index and its text
content (a sequence of code points). -/
structure Chunk where
  index : Nat
  content : List Char
deriving DecidableEq, Repr

/-- Literal removal of every non-overlapping occurrence of the substring `p`
from the text, scanning left to right — the semantics of Python's
`str.replace(p, '')` used by the normalization step.  The recursion is driven
by a fuel argument so that the kernel can evaluate it; every step consumes at
least one character, so fuel equal to the text's length (as supplied by
`removeSub`) is never exhausted. -/
def removeSubAux (p : List Char) : Nat → List Char → List Char
  | _, [] => []
  | 0, l => l
  | fuel + 1, c :: rest =>
    if p ≠ [] ∧ p.isPrefixOf (c :: rest) then
      removeSubAux p fuel ((c :: rest).drop p.length)
    else
      c :: removeSubAux p fuel rest

/-- Python's `str.replace(p, '')` on code-point sequences. -/
def removeSub (p l : List Char) : List Char :=
  removeSubAux p l.length l

/-- Modelled from the spec: step 1 of §4.1 — literal substring removal of
`#`, `**`, `*` and the backtick, in that order (the order used by the
repository's tests). -/
def normalize (t : List Char) : List Char :=
  removeSub [Char.ofNat 96] (removeSub [Char.ofNat 42]
    (removeSub [Char.ofNat 42, Char.ofNat 42] (removeSub [Char.ofNat 35] t)))

/-- Split the text at every non-overlapping occurrence of the separator `sep`,
scanning left to right — the semantics of Python's `str.split(sep)` for a
non-empty separator.  Fuel-driven like `removeSubAux`; the fuel supplied by
`splitOnSeq` is never exhausted. -/
def splitOnSeqAux (sep : List Char) : Nat → List Char → List (List Char)
  | _, [] => [[]]
  | 0, l => [l]
  | fuel + 1, c :: rest =>
    if sep ≠ [] ∧ sep.isPrefixOf (c :: rest) then
      [] :: splitOnSeqAux sep fuel ((c :: rest).drop sep.length)
    else
      match splitOnSeqAux sep fuel rest with
      | [] => [[c]]
      | r :: rs => (c :: r) :: rs

/-- Python's `str.split(sep)` on code-point sequences. -/
def splitOnSeq (sep l : List Char) : List (List Char) :=
  splitOnSeqAux sep l.length l

/-- Trim: remove leading and trailing whitespace code points, the semantics of
Python's `str.strip()` restricted to ASCII whitespace. -/
def trim (l : List Char) : List Char :=
  ((l.dropWhile Char.isWhitespace).reverse.dropWhile Char.isWhitespace).reverse

/-- Modelled from the spec: step 2 of §4.1 — split the normalized text on the
literal two-newline sequence in `paragraph` mode, on a single newline in
`line` mode. -/
def rawSegments (t : List Char) (mode : ChunkMode) : List (List Char) :=
  match mode with
  | ChunkMode.paragraph => splitOnSeq [Char.ofNat 10, Char.ofNat 10] (normalize t)
  | ChunkMode.line => splitOnSeq [Char.ofNat 10] (normalize t)

/-- Modelled from the spec: step 3 of §4.1 — drop any segment whose trimmed
content is empty. -/
def filteredSegments (t : List Char) (mode : ChunkMode) : List (List Char) :=
  (rawSegments t mode).filter (fun s => decide (trim s ≠ []))

/-- Modelled from the spec: steps 1–6 of §4.1 — normalize, split, filter empty
segments, keep the first `maxChunks` segments, hard-truncate each to
`maxCharsPerChunk` code points, and assign ascending zero-based indices. -/
def chunk (t : List Char) (C : ChunkConfig) : List Chunk :=
  (((filteredSegments t C.mode).take C.maxChunks).map
      (fun s => s.take C.maxCharsPerChunk)).enum.map
    (fun p => { index := p.1, content := p.2 })

/-- Modelled from the spec: the errors of §7 (`EmptyInput` is explicitly not an
error, so it has no constructor); `SynthesisFailed` is tagged with the failing
chunk index. -/
inductive PlaybackError where
  | InvalidState
  | SynthesisFailed (idx : Int)
deriving DecidableEq, Repr

/-- Modelled from the spec: the PlaybackSession state of §3, with an extra
`released` event log recording every handle handed to the collaborator's
`release` operation (used to state the release-exactly-once properties).
Audio handles are opaque; they are embedded as natural numbers. -/
structure PlayerState where
  chunks : List Chunk
  currentIndex : Int
  audioHandles : List (Nat × Nat)
  isPlaying : Bool
  released : List Nat
deriving DecidableEq, Repr

/-- Modelled from the spec: the idle controller — no session, index -1. -/
def initState : PlayerState :=
  { chunks := [], currentIndex := -1, audioHandles := [], isPlaying := false,
    released := [] }

/-- Modelled from the spec: `currentChunkIndex()` of §4.2 returns the current
index (-1 when not playing). -/
def currentChunkIndex (s : PlayerState) : Int :=
  s.currentIndex

/-- Modelled from the spec: `stop()` of §4.2 — release every entry of
`audioHandles` (recorded in the `released` log), clear `audioHandles`, set
`currentIndex = -1` and `isPlaying = false`. -/
def stop (s : PlayerState) : PlayerState :=
  { chunks := s.chunks, currentIndex := -1, audioHandles := [],
    isPlaying := false, released := s.released ++ s.audioHandles.map Prod.snd }

/-- Modelled from the spec: `start(chunkSequence)` of §4.2 — `InvalidState` if
a session is active; a no-op on an empty sequence (no session created, no
error); otherwise a fresh session at index 0. -/
def start (s : PlayerState) (seq : List Chunk) : Except PlaybackError PlayerState :=
  if s.isPlaying then
    Except.error PlaybackError.InvalidState
  else if seq.isEmpty then
    Except.ok s
  else
    Except.ok { s with chunks := seq, currentIndex := 0, isPlaying := true,
                       audioHandles := [] }

/-- Modelled from the spec: recording the handle returned by a successful
`synthesize` call for chunk `i` into the session's `audioHandles`. -/
def recordHandle (s : PlayerState) (i : Nat) (h : Nat) : PlayerState :=
  { s with audioHandles := s.audioHandles ++ [(i, h)] }

/-- Modelled from the spec: the failure path of §4.2/§7 — the controller
reports `SynthesisFailed` tagged with the failing chunk index and immediately
calls `stop()`. -/
def handleSynthesisFailure (s : PlayerState) : PlaybackError × PlayerState :=
  (PlaybackError.SynthesisFailed s.currentIndex, stop s)

/-- Modelled from the spec: `advance()` of §4.2 — while chunks remain,
increment the index and request synthesis of the new current chunk from the
external collaborator (`synth`); a failed request takes the
`SynthesisFailed` path; past the last chunk, `stop()`. -/
def advance (synth : List Char → Option Nat) (s : PlayerState) :
    Option PlaybackError × PlayerState :=
  if h : 0 ≤ s.currentIndex ∧ s.currentIndex.toNat + 1 < s.chunks.length then
    let i : Nat := s.currentIndex.toNat + 1
    match synth (s.chunks.get ⟨i, h.2⟩).content with
    | some hd =>
        (none, { s with currentIndex := Int.ofNat i,
                        audioHandles := s.audioHandles ++ [(i, hd)] })
    | none =>
        let r := handleSynthesisFailure { s with currentIndex := Int.ofNat i }
        (some r.1, r.2)
  else
    (none, stop s)

/-- From `src/tts/app.py`, `synthesize` lines 138–143: the speaking rate; the
`length_scale` query value is parsed (`float(...)`) and clamped by
`max(0.5, min(2.0, v))`; an absent value defaults to 1.0 and is clamped; a
value that fails to parse (`ValueError`) falls back to 1.0.  Python floats are
embedded as rationals; the parser is an oracle parameter. -/
def lengthScale (parseFloat : List Char → Option ℚ) (arg : Option (List Char)) : ℚ :=
  match arg with
  | none => max (1/2) (min 2 1)
  | some s =>
    match parseFloat s with
    | some v => max (1/2) (min 2 v)
    | none => 1

/-- From `src/tts/app.py`, `get_available_voices` line 67: the glob pattern
`*.onnx` matches exactly the entries whose name ends in `.onnx` (pathlib's
`glob` uses `fnmatch` semantics, which also match names with a leading dot). -/
def isOnnxFile (f : List Char) : Bool :=
  ".onnx".data.isSuffixOf f

/-- From `src/tts/app.py`, `get_available_voices` line 68: `onnx_file.stem`.
For a name ending in `.onnx`, pathlib strips the final suffix — unless the
name is exactly `.onnx`, which pathlib treats as a suffix-less hidden file
whose stem is the whole name. -/
def voiceStem (f : List Char) : List Char :=
  if f = ".onnx".data then f else f.take (f.length - 5)

/-- From `src/tts/app.py`, `get_available_voices` line 69:
`onnx_file.with_suffix('.onnx.json')` — replace the final suffix by
`.onnx.json` (pathlib appends when the name, such as `.onnx`, has no suffix). -/
def voiceJson (f : List Char) : List Char :=
  voiceStem f ++ ".onnx.json".data

/-- Code-point lexicographic order on names, the order Python's `sorted` uses
on strings. -/
def lexLe : List Char → List Char → Bool
  | [], _ => true
  | _ :: _, [] => false
  | a :: as, b :: bs => if a < b then true else if b < a then false else lexLe as bs

/-- Insert into a lexicographically sorted list of names. -/
def insertSorted (x : List Char) : List (List Char) → List (List Char)
  | [] => [x]
  | y :: ys => if lexLe x y then x :: y :: ys else y :: insertSorted x ys

/-- Sort names lexicographically (insertion sort; it agrees with Python's
`sorted` because code-point order is total and antisymmetric). -/
def sortNames : List (List Char) → List (List Char)
  | [] => []
  | x :: xs => insertSorted x (sortNames xs)

/-- From `src/tts/app.py`, `get_available_voices` lines 63–72: scan the models
directory (embedded as the list `fs` of its entry names) for `*.onnx` files,
keep the stem of each one whose `.onnx.json` companion exists, and return the
sorted list. -/
def get_available_voices (fs : List (List Char)) : List (List Char) :=
  sortNames ((fs.filter (fun f => isOnnxFile f)).filterMap
    (fun f => if voiceJson f ∈ fs then some (voiceStem f) else none))

/-- The text of the i-th paragraph of the fifty-paragraph example used by
`test_max_chunks_limit` (`f'Paragraph {i}'`). -/
def paraText (i : Nat) : List Char :=
  "Paragraph ".data ++ Nat.toDigits 10 i

/-- Fifty paragraphs joined by blank lines, as built by
`test_max_chunks_limit` in `src/tests/test_read_along.py`. -/
def fiftyParagraphs : List Char :=
  List.intercalate "\n\n".data ((List.range 50).map paraText)

/-- The failure scenario of §8: a three-chunk session currently playing
chunk 1, with the chunk-0 handle (the opaque handle 7) already synthesized. -/
def failingSession : PlayerState :=
  recordHandle
    { initState with
        chunks := [⟨0, ['a']⟩, ⟨1, ['b']⟩, ⟨2, ['c']⟩],
        currentIndex := 1, isPlaying := true }
    0 7

/-! Helper lemmas about the chunker's string operations. -/

theorem mem_removeSubAux {p : List Char} :
    ∀ (fuel : Nat) (l : List Char) (x : Char), x ∈ removeSubAux p fuel l → x ∈ l := by
  intro fuel
  induction fuel with
  | zero =>
    intro l x hx
    cases l with
    | nil => simpa [removeSubAux] using hx
    | cons c rest => simpa [removeSubAux] using hx
  | succ fuel ih =>
    intro l x hx
    cases l with
    | nil => simpa [removeSubAux] using hx
    | cons c rest =>
      rw [removeSubAux] at hx
      by_cases h : p ≠ [] ∧ p.isPrefixOf (c :: rest) = true
      · rw [if_pos h] at hx
        exact List.drop_subset _ _ (ih _ _ hx)
      · rw [if_neg h] at hx
        rcases List.mem_cons.mp hx with rfl | hx
        · exact List.mem_cons_self _ _
        · exact List.mem_cons_of_mem _ (ih _ _ hx)

theorem mem_removeSub {p l : List Char} {x : Char} (hx : x ∈ removeSub p l) :
    x ∈ l :=
  mem_removeSubAux _ _ _ hx

theorem not_mem_removeSubAux_single (c : Char) :
    ∀ (fuel : Nat) (l : List Char), l.length ≤ fuel →
      c ∉ removeSubAux [c] fuel l := by
  intro fuel
  induction fuel with
  | zero =>
    intro l hlen
    have : l = [] := List.length_eq_zero.mp (Nat.le_zero.mp hlen)
    subst this
    simp [removeSubAux]
  | succ fuel ih =>
    intro l hlen
    cases l with
    | nil => simp [removeSubAux]
    | cons d rest =>
      rw [removeSubAux]
      simp only [List.length_cons] at hlen
      by_cases h : ([c] : List Char) ≠ [] ∧ ([c] : List Char).isPrefixOf (d :: rest) = true
      · rw [if_pos h]
        exact ih _ (by simpa using Nat.le_of_succ_le_succ hlen)
      · rw [if_neg h]
        intro hmem
        rcases List.mem_cons.mp hmem with rfl | hmem
        · exact h ⟨by simp, by simp [List.isPrefixOf]⟩
        · exact ih _ (Nat.le_of_succ_le_succ hlen) hmem

theorem not_mem_removeSub_single (c : Char) (l : List Char) :
    c ∉ removeSub [c] l :=
  not_mem_removeSubAux_single c l.length l (Nat.le_refl _)

theorem subset_of_mem_splitOnSeqAux (sep : List Char) :
    ∀ (fuel : Nat) (l : List Char), ∀ r ∈ splitOnSeqAux sep fuel l, r ⊆ l := by
  intro fuel
  induction fuel with
  | zero =>
    intro l r hr
    cases l with
    | nil =>
      simp [splitOnSeqAux] at hr
      simp [hr]
    | cons c rest =>
      simp [splitOnSeqAux] at hr
      simp [hr]
  | succ fuel ih =>
    intro l r hr
    cases l with
    | nil =>
      simp [splitOnSeqAux] at hr
      simp [hr]
    | cons c rest =>
      rw [splitOnSeqAux] at hr
      by_cases h : sep ≠ [] ∧ sep.isPrefixOf (c :: rest) = true
      · rw [if_pos h] at hr
        rcases List.mem_cons.mp hr with rfl | hr
        · simp
        · exact (ih _ r hr).trans (List.drop_subset _ _)
      · rw [if_neg h] at hr
        revert hr
        cases hsp : splitOnSeqAux sep fuel rest with
        | nil =>
          intro hr
          simp at hr
          subst hr
          simp
        | cons r0 rs =>
          intro hr
          rcases List.mem_cons.mp hr with rfl | hr
          · intro x hx
            rcases List.mem_cons.mp hx with rfl | hx
            · exact List.mem_cons_self _ _
            · exact List.mem_cons_of_mem _
                (ih _ r0 (by rw [hsp]; exact List.mem_cons_self _ _) hx)
          · exact (ih _ r (by rw [hsp]; exact List.mem_cons_of_mem _ hr)).trans
              (List.subset_cons_self _ _)

theorem subset_of_mem_splitOnSeq (sep : List Char) (l : List Char) :
    ∀ r ∈ splitOnSeq sep l, r ⊆ l :=
  subset_of_mem_splitOnSeqAux sep l.length l

theorem hash_not_mem_normalize (t : List Char) : Char.ofNat 35 ∉ normalize t := by
  intro hmem
  exact not_mem_removeSub_single (Char.ofNat 35) t
    (mem_removeSub (mem_removeSub (mem_removeSub hmem)))

theorem star_not_mem_normalize (t : List Char) : Char.ofNat 42 ∉ normalize t := by
  intro hmem
  exact not_mem_removeSub_single (Char.ofNat 42) _ (mem_removeSub hmem)

theorem backtick_not_mem_normalize (t : List Char) : Char.ofNat 96 ∉ normalize t := by
  intro hmem
  exact not_mem_removeSub_single (Char.ofNat 96) _ hmem

theorem content_subset_of_mem_chunk {t : List Char} {C : ChunkConfig} {c : Chunk}
    (hc : c ∈ chunk t C) :
    ∃ s ∈ filteredSegments t C.mode, c.content = s.take C.maxCharsPerChunk := by
  rcases List.mem_map.mp hc with ⟨p, hp, rfl⟩
  have h2 : p.2 ∈ ((filteredSegments t C.mode).take C.maxChunks).map
      (fun s => s.take C.maxCharsPerChunk) := by
    have := List.enum_map_snd (((filteredSegments t C.mode).take C.maxChunks).map
      (fun s => s.take C.maxCharsPerChunk))
    rw [← this]
    exact List.mem_map_of_mem _ hp
  rcases List.mem_map.mp h2 with ⟨s, hs, heq⟩
  exact ⟨s, List.take_subset _ _ hs, heq.symm⟩

theorem trim_ne_nil_of_mem_filteredSegments {t : List Char} {mode : ChunkMode}
    {s : List Char} (hs : s ∈ filteredSegments t mode) : trim s ≠ [] := by
  have := (List.mem_filter.mp hs).2
  simpa using this

theorem mem_normalize_of_mem_filteredSegments {t : List Char} {mode : ChunkMode}
    {s : List Char} (hs : s ∈ filteredSegments t mode) {x : Char} (hx : x ∈ s) :
    x ∈ normalize t := by
  have hraw : s ∈ rawSegments t mode := (List.mem_filter.mp hs).1
  cases mode with
  | paragraph => exact subset_of_mem_splitOnSeq _ _ _ hraw hx
  | line => exact subset_of_mem_splitOnSeq _ _ _ hraw hx

/-! The claims. -/

set_option maxRecDepth 10000

/-- C1, counterexample: with `maxCharsPerChunk = 1`, the text consisting of a
space followed by the letter a passes the step-3 filter (its trimmed content
is the non-empty string a) but is then hard-truncated to the single space,
whose trimmed content is empty — so not every output chunk has non-empty
trimmed content. -/
theorem chunk_trimmed_empty_after_truncation :
    chunk [' ', 'a']
        { mode := ChunkMode.paragraph, maxChunks := 30, maxCharsPerChunk := 1 } =
      [{ index := 0, content := [' '] }] ∧ trim [' '] = [] := by
  decide

/-- C1 (amended): for every text and every configuration with positive
`maxCharsPerChunk`, every output chunk has non-empty content, and every chunk
that was not hard-truncated in step 5 (in particular every chunk whose length
is strictly below `maxCharsPerChunk`) has non-empty trimmed content.  The
original claim — non-empty trimmed content for all chunks including truncated
ones — is refuted by `chunk_trimmed_empty_after_truncation`. -/
theorem chunk_content_nonempty (t : List Char) (C : ChunkConfig)
    (hpos : 0 < C.maxCharsPerChunk) :
    ∀ c ∈ chunk t C, c.content ≠ [] ∧
      (c.content.length < C.maxCharsPerChunk → trim c.content ≠ []) := by
  intro c hc
  obtain ⟨s, hs, hcontent⟩ := content_subset_of_mem_chunk hc
  have htrim := trim_ne_nil_of_mem_filteredSegments hs
  have hsne : s ≠ [] := by
    intro h
    exact htrim (by simp [h, trim])
  refine ⟨?_, ?_⟩
  · rw [hcontent]
    cases s with
    | nil => exact absurd rfl hsne
    | cons a as =>
      obtain ⟨n, hn⟩ : ∃ n, C.maxCharsPerChunk = n + 1 :=
        ⟨C.maxCharsPerChunk - 1, by omega⟩
      rw [hn]
      simp
  · intro hlt
    rw [hcontent, List.length_take] at hlt
    have hslen : s.length ≤ C.maxCharsPerChunk :=
      Nat.le_of_lt ((inf_lt_iff.mp hlt).resolve_left (lt_irrefl _))
    rw [hcontent, List.take_of_length_le hslen]
    exact htrim

/-- C1 witness: the amended theorem applied to the one-chunk text A under the
default configuration. -/
theorem chunk_content_nonempty_at_default :
    0 < default_config.maxCharsPerChunk ∧
      (⟨0, ['A']⟩ : Chunk) ∈ chunk ['A'] default_config ∧
      ((['A'] : List Char) ≠ [] ∧
        ((['A'] : List Char).length < default_config.maxCharsPerChunk →
          trim ['A'] ≠ [])) :=
  ⟨by decide, by decide,
    chunk_content_nonempty ['A'] default_config (by decide) ⟨0, ['A']⟩ (by decide)⟩

/-- C2: every chunk's content, measured in code points, is at most
`maxCharsPerChunk` long; each chunk's content is the `maxCharsPerChunk`-code-
point prefix of a filtered segment (a hard cut at a code-point boundary, never
inside a code point, with no word-boundary awareness), and a segment exceeding
the bound is truncated to exactly `maxCharsPerChunk` code points. -/
theorem chunk_content_le_maxChars (t : List Char) (C : ChunkConfig) :
    ∀ c ∈ chunk t C, c.content.length ≤ C.maxCharsPerChunk ∧
      ∃ s ∈ filteredSegments t C.mode, c.content = s.take C.maxCharsPerChunk ∧
        (C.maxCharsPerChunk < s.length →
          c.content.length = C.maxCharsPerChunk) := by
  intro c hc
  obtain ⟨s, hs, hcontent⟩ := content_subset_of_mem_chunk hc
  refine ⟨?_, s, hs, hcontent, ?_⟩
  · rw [hcontent]
    exact List.length_take_le _ _
  · intro hgt
    rw [hcontent, List.length_take]
    exact inf_eq_left.mpr (Nat.le_of_lt hgt)

/-- C2 witness: the theorem applied to the text abc with
`maxCharsPerChunk = 2`, whose single chunk is the truncated segment ab. -/
theorem chunk_content_le_maxChars_at_abc :
    (⟨0, ['a', 'b']⟩ : Chunk) ∈
        chunk ['a', 'b', 'c'] ⟨ChunkMode.paragraph, 30, 2⟩ ∧
      ((['a', 'b'] : List Char).length ≤ 2 ∧
        ∃ s ∈ filteredSegments ['a', 'b', 'c'] ChunkMode.paragraph,
          (['a', 'b'] : List Char) = s.take 2 ∧
            (2 < s.length → (['a', 'b'] : List Char).length = 2)) :=
  ⟨by decide, chunk_content_le_maxChars ['a', 'b', 'c']
    ⟨ChunkMode.paragraph, 30, 2⟩ ⟨0, ['a', 'b']⟩ (by decide)⟩

/-- C3: the chunk sequence never exceeds `maxChunks` elements, and the
fifty-paragraph text of `test_max_chunks_limit` chunked with the default
configuration (`maxChunks = 30`) yields exactly the first 30 paragraphs, in
order, with ascending indices — the rest are silently dropped. -/
theorem chunk_length_le_maxChunks :
    (∀ (t : List Char) (C : ChunkConfig), (chunk t C).length ≤ C.maxChunks) ∧
      chunk fiftyParagraphs default_config =
        (List.range 30).map (fun i => { index := i, content := paraText i }) := by
  constructor
  · intro t C
    simp only [chunk, List.length_map, List.enum_length]
    exact List.length_take_le _ _
  · decide

/-- C5: paragraph mode splits on the literal two-newline sequence and line
mode splits on a single newline: the paragraph-mode chunking of
`A\n\nB\n\nC` and the line-mode chunking of `A\nB\nC` both give the chunks
A, B, C with indices 0, 1, 2. -/
theorem chunk_paragraph_line_modes :
    chunk "A\n\nB\n\nC".data default_config =
        [{ index := 0, content := ['A'] }, { index := 1, content := ['B'] },
          { index := 2, content := ['C'] }] ∧
      chunk "A\nB\nC".data { default_config with mode := ChunkMode.line } =
        [{ index := 0, content := ['A'] }, { index := 1, content := ['B'] },
          { index := 2, content := ['C'] }] := by
  decide

/-- C6: after the normalization step no chunk content contains the hash,
asterisk or backtick character (code points 35, 42 and 96). -/
theorem chunk_no_markdown_chars (t : List Char) (C : ChunkConfig) :
    ∀ c ∈ chunk t C, ∀ ch ∈ c.content,
      ch ≠ Char.ofNat 35 ∧ ch ≠ Char.ofNat 42 ∧ ch ≠ Char.ofNat 96 := by
  intro c hc ch hch
  obtain ⟨s, hs, hcontent⟩ := content_subset_of_mem_chunk hc
  have hmem : ch ∈ normalize t := by
    apply mem_normalize_of_mem_filteredSegments hs
    rw [hcontent] at hch
    exact List.take_subset _ _ hch
  exact ⟨fun h => hash_not_mem_normalize t (h ▸ hmem),
    fun h => star_not_mem_normalize t (h ▸ hmem),
    fun h => backtick_not_mem_normalize t (h ▸ hmem)⟩

/-- C6 witness: the theorem applied to a text carrying a heading marker, whose
chunk content keeps only the letter a. -/
theorem chunk_no_markdown_chars_at_hash :
    (⟨0, ['a']⟩ : Chunk) ∈ chunk [Char.ofNat 35, 'a'] default_config ∧
      'a' ∈ (⟨0, ['a']⟩ : Chunk).content ∧
      ('a' ≠ Char.ofNat 35 ∧ 'a' ≠ Char.ofNat 42 ∧ 'a' ≠ Char.ofNat 96) :=
  ⟨by decide, by decide,
    chunk_no_markdown_chars [Char.ofNat 35, 'a'] default_config ⟨0, ['a']⟩
      (by decide) 'a' (by decide)⟩

/-- C4: empty input is a no-op and never an error: `chunk` of the empty text
is the empty sequence for every configuration, and `start` on an empty chunk
sequence from an idle controller completes immediately without creating a
session and without an error, leaving `currentChunkIndex` at -1. -/
theorem chunk_empty_and_start_empty :
    (∀ C : ChunkConfig, chunk [] C = []) ∧
      ∀ s : PlayerState, s.isPlaying = false → s.currentIndex = -1 →
        start s [] = Except.ok s ∧ currentChunkIndex s = -1 := by
  constructor
  · intro C
    cases hm : C.mode <;>
      simp [chunk, filteredSegments, rawSegments, hm, normalize, removeSub,
        removeSubAux, splitOnSeq, splitOnSeqAux, trim]
  · intro s hplay hidx
    exact ⟨by simp [start, hplay], hidx⟩

/-- C4 witness: the empty text under the default configuration and `start` of
the empty sequence on the idle controller. -/
theorem chunk_empty_and_start_empty_at_init :
    chunk [] default_config = [] ∧ start initState [] = Except.ok initState ∧
      currentChunkIndex initState = -1 :=
  ⟨chunk_empty_and_start_empty.1 default_config,
    (chunk_empty_and_start_empty.2 initState rfl rfl).1,
    (chunk_empty_and_start_empty.2 initState rfl rfl).2⟩

/-- C7: when the external collaborator fails to synthesize the requested
chunk of an active session, the controller reports `SynthesisFailed` tagged
with the failing chunk index and immediately stops: afterwards `isPlaying` is
false, `currentChunkIndex` is -1, and every handle synthesized before the
failure appears exactly once in the release log (given that the session's
handles are distinct and not yet released — the session invariants). -/
theorem synthesisFailure_stops_and_releases :
    ∀ s : PlayerState, s.isPlaying = true →
      (s.audioHandles.map Prod.snd).Nodup →
      (∀ h ∈ s.audioHandles.map Prod.snd, h ∉ s.released) →
      (handleSynthesisFailure s).1 =
          PlaybackError.SynthesisFailed (currentChunkIndex s) ∧
        (handleSynthesisFailure s).2.isPlaying = false ∧
        currentChunkIndex (handleSynthesisFailure s).2 = -1 ∧
        ∀ h ∈ s.audioHandles.map Prod.snd,
          (handleSynthesisFailure s).2.released.count h = 1 := by
  intro s hplay hnodup hfresh
  refine ⟨rfl, rfl, rfl, ?_⟩
  intro h hmem
  simp only [handleSynthesisFailure, stop]
  rw [List.count_append, List.count_eq_zero.mpr (hfresh h hmem),
    List.count_eq_one_of_mem hnodup hmem]

/-- C7 witness: a `SynthesisFailed` at chunk 1 of 3 with the chunk-0 handle 7
synthesized: the error carries index 1 and stopping releases handle 7 exactly
once. -/
theorem synthesisFailure_at_chunk_one :
    failingSession.isPlaying = true ∧
      (handleSynthesisFailure failingSession).1 =
        PlaybackError.SynthesisFailed 1 ∧
      (handleSynthesisFailure failingSession).2.isPlaying = false ∧
      currentChunkIndex (handleSynthesisFailure failingSession).2 = -1 ∧
      (handleSynthesisFailure failingSession).2.released.count 7 = 1 :=
  ⟨rfl,
    (synthesisFailure_stops_and_releases failingSession rfl (by decide)
        (by decide)).1,
    (synthesisFailure_stops_and_releases failingSession rfl (by decide)
        (by decide)).2.1,
    (synthesisFailure_stops_and_releases failingSession rfl (by decide)
        (by decide)).2.2.1,
    (synthesisFailure_stops_and_releases failingSession rfl (by decide)
        (by decide)).2.2.2 7 (by decide)⟩

/-- C8: `stop()` is idempotent: a second consecutive `stop()` from any state
changes nothing and releases no handle a second time, and `stop()` on an idle
controller (no session: index -1, not playing, no handles) is a no-op. -/
theorem stop_idempotent :
    ∀ s : PlayerState, stop (stop s) = stop s ∧
      ((s.currentIndex = -1 ∧ s.isPlaying = false ∧ s.audioHandles = []) →
        stop s = s) := by
  intro s
  constructor
  · simp [stop]
  · rintro ⟨hidx, hplay, hhandles⟩
    cases s
    simp_all [stop]

/-- C8 witness: the theorem at the idle controller. -/
theorem stop_idempotent_at_init :
    stop (stop initState) = stop initState ∧ stop initState = initState :=
  ⟨(stop_idempotent initState).1, (stop_idempotent initState).2 ⟨rfl, rfl, rfl⟩⟩

/-- C9: for every request, the speaking rate handed to the synthesis engine
lies in the closed interval from 1/2 to 2; a parsed numeric value is clamped
to the nearest bound when out of range (and passed through when in range),
and a value the parser rejects falls back to 1 rather than failing. -/
theorem lengthScale_clamped :
    ∀ (parseFloat : List Char → Option ℚ) (arg : Option (List Char)),
      (1/2 ≤ lengthScale parseFloat arg ∧ lengthScale parseFloat arg ≤ 2) ∧
      (∀ s v, arg = some s → parseFloat s = some v →
        ((v ≤ 1/2 → lengthScale parseFloat arg = 1/2) ∧
          (2 ≤ v → lengthScale parseFloat arg = 2) ∧
          (1/2 ≤ v → v ≤ 2 → lengthScale parseFloat arg = v))) ∧
      (∀ s, arg = some s → parseFloat s = none →
        lengthScale parseFloat arg = 1) := by
  intro parseFloat arg
  have hb : ∀ v : ℚ, 1/2 ≤ max (1/2) (min 2 v) ∧ max (1/2) (min 2 v) ≤ 2 := by
    intro v
    exact ⟨le_max_left _ _, max_le (by norm_num) (min_le_left _ _)⟩
  refine ⟨?_, ?_, ?_⟩
  · cases arg with
    | none => simpa [lengthScale] using hb 1
    | some s =>
      cases hp : parseFloat s with
      | none =>
        constructor <;> norm_num [lengthScale, hp]
      | some v =>
        simpa [lengthScale, hp] using hb v
  · intro s v harg hp
    subst harg
    rw [show lengthScale parseFloat (some s) = max (1/2) (min 2 v) by
      simp [lengthScale, hp]]
    refine ⟨?_, ?_, ?_⟩
    · intro hv
      rw [min_eq_right (by linarith : v ≤ (2 : ℚ)), max_eq_left hv]
    · intro hv
      rw [min_eq_left hv, max_eq_right (by norm_num : (1:ℚ)/2 ≤ 2)]
    · intro hv1 hv2
      rw [min_eq_right hv2, max_eq_right hv1]
  · intro s harg hp
    subst harg
    simp [lengthScale, hp]

/-- C9 witness: a parsed value 5 is clamped to the upper bound 2, and an
unparsable value falls back to 1. -/
theorem lengthScale_clamped_at_five :
    lengthScale (fun _ => some 5) (some ['5']) = 2 ∧
      lengthScale (fun _ => none) (some ['x']) = 1 :=
  ⟨((lengthScale_clamped (fun _ => some 5) (some ['5'])).2.1 ['5'] 5 rfl
        rfl).2.1 (by norm_num),
    (lengthScale_clamped (fun _ => none) (some ['x'])).2.2 ['x'] rfl rfl⟩

/-! Helper lemmas for the voice-listing function. -/

theorem lexLe_total : ∀ a b : List Char, lexLe a b = true ∨ lexLe b a = true
  | [], _ => Or.inl rfl
  | _ :: _, [] => Or.inr rfl
  | a :: as, b :: bs => by
    rcases lt_trichotomy a b with h | h | h
    · left
      simp [lexLe, h]
    · subst h
      rcases lexLe_total as bs with ih | ih
      · left
        simpa [lexLe, lt_irrefl] using ih
      · right
        simpa [lexLe, lt_irrefl] using ih
    · right
      simp [lexLe, h]

theorem lexLe_trans :
    ∀ a b c : List Char, lexLe a b = true → lexLe b c = true → lexLe a c = true
  | [], _, _ => fun _ _ => rfl
  | _ :: _, [], _ => fun h1 _ => by simp [lexLe] at h1
  | _ :: _, _ :: _, [] => fun _ h2 => by simp [lexLe] at h2
  | a :: as, b :: bs, c :: cs => fun h1 h2 => by
    by_cases hab : a < b
    · by_cases hbc : b < c
      · simp [lexLe, lt_trans hab hbc]
      · by_cases hcb : c < b
        · simp [lexLe, hbc, hcb] at h2
        · have hbceq : b = c := le_antisymm (not_lt.mp hcb) (not_lt.mp hbc)
          subst hbceq
          simp [lexLe, hab]
    · by_cases hba : b < a
      · simp [lexLe, hab, hba] at h1
      · have habeq : a = b := le_antisymm (not_lt.mp hba) (not_lt.mp hab)
        subst habeq
        simp only [lexLe, lt_irrefl, if_false] at h1
        by_cases hac : a < c
        · simp [lexLe, hac]
        · by_cases hca : c < a
          · simp [lexLe, hac, hca] at h2
          · have haceq : a = c := le_antisymm (not_lt.mp hca) (not_lt.mp hac)
            subst haceq
            simp only [lexLe, lt_irrefl, if_false] at h2 ⊢
            exact lexLe_trans as bs cs h1 h2

theorem mem_insertSorted (x y : List Char) :
    ∀ l : List (List Char), y ∈ insertSorted x l ↔ y = x ∨ y ∈ l := by
  intro l
  induction l with
  | nil => simp [insertSorted]
  | cons z zs ih =>
    rw [insertSorted]
    by_cases h : lexLe x z = true
    · rw [if_pos h]
      simp
    · rw [if_neg h]
      simp only [List.mem_cons, ih]
      tauto

theorem mem_sortNames (y : List Char) :
    ∀ l : List (List Char), y ∈ sortNames l ↔ y ∈ l := by
  intro l
  induction l with
  | nil => simp [sortNames]
  | cons z zs ih =>
    rw [sortNames, mem_insertSorted]
    simp [ih]

theorem pairwise_insertSorted (x : List Char) :
    ∀ l : List (List Char), l.Pairwise (fun a b => lexLe a b = true) →
      (insertSorted x l).Pairwise (fun a b => lexLe a b = true) := by
  intro l
  induction l with
  | nil =>
    intro _
    simp [insertSorted]
  | cons y ys ih =>
    intro hl
    rcases List.pairwise_cons.mp hl with ⟨hy, hys⟩
    rw [insertSorted]
    by_cases h : lexLe x y = true
    · rw [if_pos h]
      refine List.pairwise_cons.mpr ⟨?_, hl⟩
      intro z hz
      rcases List.mem_cons.mp hz with rfl | hz
      · exact h
      · exact lexLe_trans x y z h (hy z hz)
    · rw [if_neg h]
      refine List.pairwise_cons.mpr ⟨?_, ih hys⟩
      intro z hz
      rcases (mem_insertSorted x z ys).mp hz with rfl | hz
      · exact (lexLe_total _ y).resolve_left h
      · exact hy z hz

theorem sortNames_sorted :
    ∀ l : List (List Char),
      (sortNames l).Pairwise (fun a b => lexLe a b = true) := by
  intro l
  induction l with
  | nil => simp [sortNames]
  | cons x xs ih => exact pairwise_insertSorted x (sortNames xs) ih

theorem isOnnxFile_iff (f : List Char) :
    isOnnxFile f = true ↔ ∃ m, f = m ++ ".onnx".data := by
  rw [isOnnxFile, List.isSuffixOf_iff_suffix]
  exact ⟨fun ⟨t, ht⟩ => ⟨t, ht.symm⟩, fun ⟨m, hm⟩ => ⟨m, hm.symm⟩⟩

theorem voiceStem_of_append {m : List Char}
    (h : m ++ ".onnx".data ≠ ".onnx".data) :
    voiceStem (m ++ ".onnx".data) = m := by
  rw [voiceStem, if_neg h]
  have h5 : (".onnx".data : List Char).length = 5 := rfl
  have hlen : (m ++ ".onnx".data).length - 5 = m.length := by
    rw [List.length_append, h5]
    omega
  rw [hlen]
  exact List.take_left _ _

/-- C10, counterexample: a models directory containing exactly the files
`.onnx` and `.onnx.onnx.json` lists the voice name `.onnx` (pathlib treats
the hidden file `.onnx` as suffix-less: its stem is the whole name and
`with_suffix` appends), yet `<name>.onnx`, i.e. `.onnx.onnx`, does not exist
— so "name listed iff both `<name>.onnx` and `<name>.onnx.json` exist"
fails. -/
theorem voices_lists_phantom_name :
    get_available_voices [".onnx".data, ".onnx.onnx.json".data] =
        [".onnx".data] ∧
      (".onnx".data ++ ".onnx".data) ∉
        [".onnx".data, ".onnx.onnx.json".data] := by
  decide

/-- C10 (amended): for every models directory that contains no file named
exactly `.onnx`, a voice name is listed iff both `<name>.onnx` and
`<name>.onnx.json` exist, and the returned list is sorted in ascending
(code-point lexicographic, non-decreasing) order.  The unrestricted claim is
refuted by `voices_lists_phantom_name`. -/
theorem voices_iff_both_files :
    ∀ fs : List (List Char), ".onnx".data ∉ fs →
      (∀ n, n ∈ get_available_voices fs ↔
        (n ++ ".onnx".data) ∈ fs ∧ (n ++ ".onnx.json".data) ∈ fs) ∧
      (get_available_voices fs).Pairwise (fun a b => lexLe a b = true) := by
  intro fs hno
  constructor
  · intro n
    constructor
    · intro hn
      rw [get_available_voices, mem_sortNames] at hn
      rcases List.mem_filterMap.mp hn with ⟨f, hf, hsome⟩
      rcases List.mem_filter.mp hf with ⟨hffs, honnx⟩
      rcases (isOnnxFile_iff f).mp honnx with ⟨m, rfl⟩
      have hne : m ++ ".onnx".data ≠ ".onnx".data := fun he => hno (he ▸ hffs)
      have hstem := voiceStem_of_append hne
      by_cases hj : voiceJson (m ++ ".onnx".data) ∈ fs
      · rw [if_pos hj, hstem] at hsome
        have hmn : m = n := Option.some.inj hsome
        subst hmn
        refine ⟨hffs, ?_⟩
        rw [voiceJson, hstem] at hj
        exact hj
      · rw [if_neg hj] at hsome
        exact absurd hsome (by simp)
    · rintro ⟨honnx, hjson⟩
      rw [get_available_voices, mem_sortNames]
      apply List.mem_filterMap.mpr
      have hne : n ++ ".onnx".data ≠ ".onnx".data := fun he => hno (he ▸ honnx)
      refine ⟨n ++ ".onnx".data,
        List.mem_filter.mpr ⟨honnx, (isOnnxFile_iff _).mpr ⟨n, rfl⟩⟩, ?_⟩
      have hj : voiceJson (n ++ ".onnx".data) = n ++ ".onnx.json".data := by
        rw [voiceJson, voiceStem_of_append hne]
      rw [hj, if_pos hjson, voiceStem_of_append hne]
  · exact sortNames_sorted _

/-- C10 witness: the amended theorem at a directory holding voice a with both
of its files. -/
theorem voices_iff_at_example :
    (("a".data ∈ get_available_voices ["a.onnx".data, "a.onnx.json".data]) ↔
        ("a".data ++ ".onnx".data) ∈ ["a.onnx".data, "a.onnx.json".data] ∧
          ("a".data ++ ".onnx.json".data) ∈
            ["a.onnx".data, "a.onnx.json".data]) ∧
      (get_available_voices ["a.onnx".data, "a.onnx.json".data]).Pairwise
        (fun a b => lexLe a b = true) :=
  ⟨(voices_iff_both_files ["a.onnx".data, "a.onnx.json".data] (by decide)).1
      "a".data,
    (voices_iff_both_files ["a.onnx".data, "a.onnx.json".data] (by decide)).2⟩

end Yap
